import Mathlib

/-!
# Verification of the quicktag scanning/caching core

Shallow embedding of `src/scanner.rs` and `src/text.rs` (DeltaDesigns/quicktag).
Bytes are `Nat` values below 256, byte buffers are `List Nat`, Rust `String`s are
modelled by their UTF-8 byte sequences (`List Nat`), and the `IntMap` hash maps
are modelled by association lists with distinct keys.  Fallible operations
(stream reads, panicking indexing) return `Option`.
-/

namespace Quicktag

/-! ## Byte-order primitives

`u32_from_endian` / `u64_from_endian` live in `src/util.rs`, which is not part of
the provided sources; they are modelled from the spec ("interpret each window as
a 32-bit value in the context's byte order") as the standard little/big-endian
conversions. -/

/-- Byte order used by the scanner context (`binrw::Endian`). -/
inductive Endian
  | little
  | big
deriving DecidableEq, Repr

/-- Little-endian value of a byte list (least significant byte first). -/
def leVal : List Nat → Nat
  | [] => 0
  | b :: rest => b + 256 * leVal rest

/-- Modelled from the spec: `u32_from_endian` (from the missing `src/util.rs`)
interprets a 4-byte window as a 32-bit value in the given byte order. -/
def u32_from_endian (e : Endian) (bytes : List Nat) : Nat :=
  match e with
  | .little => leVal bytes
  | .big => leVal bytes.reverse

/-- Modelled from the spec: `u64_from_endian` (from the missing `src/util.rs`)
interprets an 8-byte window as a 64-bit value in the given byte order. -/
def u64_from_endian (e : Endian) (bytes : List Nat) : Nat :=
  match e with
  | .little => leVal bytes
  | .big => leVal bytes.reverse

/-- Little-endian encoding of `v` on `w` bytes (`u32::to_le_bytes` etc.). -/
def leBytes : Nat → Nat → List Nat
  | 0, _ => []
  | w + 1, v => v % 256 :: leBytes w (v / 256)

/-! ## Data model: `ScanResult` and `TagCache` (`src/scanner.rs`) -/

/-- `ScanResult` from `src/scanner.rs`.  `ScannedHash` pairs are `(offset, hash)`;
`raw_strings` are strings modelled as lists of Unicode code points. -/
structure ScanResult where
  successful : Bool
  file_hashes : List (Nat × Nat)
  file_hashes64 : List (Nat × Nat)
  string_hashes : List (Nat × Nat)
  raw_strings : List (List Nat)
  references : List Nat
deriving DecidableEq, Repr

/-- `ScanResult::default()`: `successful = true`, everything else empty. -/
def ScanResult.default : ScanResult :=
  ⟨true, [], [], [], [], []⟩

/-- `TagCache` from `src/scanner.rs`: timestamp of the packages directory,
format version, and the per-tag map (modelled as an association list keyed by
the 32-bit tag hash). -/
structure TagCache where
  timestamp : Nat
  version : Nat
  hashes : List (Nat × ScanResult)
deriving DecidableEq, Repr

/-- `TagCache::default().version`, the cache format version expected by this
build (`version: 3` in `src/scanner.rs`). -/
def currentCacheVersion : Nat := 3

/-! ## Cache load protocol (`load_tag_cache`, `src/scanner.rs` lines 295-372)

The file/zstd/bincode plumbing is collapsed into an `Option TagCache` input
(`none` = no cache file, undecodable stream, or failed deserialization); the
embedded function is the version/timestamp decision logic of the source. -/

/-- Outcome of `load_tag_cache`'s cache-file inspection: reuse the stored cache
unchanged, fall through to a full rebuild, or terminate the process
(`std::process::exit(21)` after the error dialog). -/
inductive CacheLoadOutcome
  | reuse (cache : TagCache)
  | rebuild
  | fatalExit (code : Nat)
deriving DecidableEq, Repr

/-- The decision logic of `load_tag_cache`: compare the stored version with
`TagCache::default().version`; on equality compare the stored timestamp with
the package directory's modification time (`pkgDirTimestamp`). -/
def load_tag_cache (stored : Option TagCache) (pkgDirTimestamp : Nat) :
    CacheLoadOutcome :=
  match stored with
  | none => .rebuild
  | some cache =>
    match compare cache.version currentCacheVersion with
    | .eq =>
      if cache.timestamp < pkgDirTimestamp then .rebuild else .reuse cache
    | .lt => .rebuild
    | .gt => .fatalExit 21

/-! ## `decode_text` (`src/text.rs` lines 283-315)

`decode_text(data, cipher)` with `cipher : u16`.  For `cipher == 0` it is
`String::from_utf8_lossy(data)`.  Otherwise it walks the buffer classifying
each leading byte into a 1/2/3/4-byte run by its range, adds the cipher to the
run's last byte (`+=` on `u8`, wrapping in release builds), then decodes the
mutated buffer with `from_utf8_lossy`.  Indexing `data_clone[off + k]` past the
end of the buffer panics in Rust; the embedding returns `none` there.  Rust
`String`s are modelled by their UTF-8 byte sequences.  Loops are embedded as a
non-recursive step function (one loop iteration) driven by a fuel-indexed
structural loop; every step consumes at least one byte, so fuel equal to the
buffer length always suffices. -/

/-- Is `b` a UTF-8 continuation byte (`0x80..=0xBF`)? -/
def isCont (b : Nat) : Bool := 0x80 ≤ b && b ≤ 0xBF

/-- Valid range for the second byte of a 3-byte UTF-8 sequence with lead `b0`
(Rust `run_utf8_validation`: `0xE0` wants `0xA0..=0xBF`, `0xED` wants
`0x80..=0x9F`, the rest want a plain continuation byte). -/
def cont3First (b0 b1 : Nat) : Bool :=
  if b0 = 0xE0 then 0xA0 ≤ b1 && b1 ≤ 0xBF
  else if b0 = 0xED then 0x80 ≤ b1 && b1 ≤ 0x9F
  else isCont b1

/-- Valid range for the second byte of a 4-byte UTF-8 sequence with lead `b0`
(`0xF0` wants `0x90..=0xBF`, `0xF4` wants `0x80..=0x8F`). -/
def cont4First (b0 b1 : Nat) : Bool :=
  if b0 = 0xF0 then 0x90 ≤ b1 && b1 ≤ 0xBF
  else if b0 = 0xF4 then 0x80 ≤ b1 && b1 ≤ 0x8F
  else isCont b1

/-- UTF-8 encoding of U+FFFD REPLACEMENT CHARACTER. -/
def replacementBytes : List Nat := [0xEF, 0xBF, 0xBD]

/-- One step of `String::from_utf8_lossy` on input `b0 :: rest`: the output
bytes for the first decoded unit (a well-formed sequence copied verbatim, or
U+FFFD for a maximal ill-formed subpart) and the input remaining after it,
following the Rust `Utf8Error::error_len` skip lengths. -/
def utf8Step (b0 : Nat) (rest : List Nat) : List Nat × List Nat :=
  if b0 ≤ 0x7F then ([b0], rest)
  else if 0xC2 ≤ b0 && b0 ≤ 0xDF then
    match rest with
    | b1 :: rest2 =>
      if isCont b1 then ([b0, b1], rest2) else (replacementBytes, rest)
    | [] => (replacementBytes, [])
  else if 0xE0 ≤ b0 && b0 ≤ 0xEF then
    match rest with
    | b1 :: rest2 =>
      if cont3First b0 b1 then
        match rest2 with
        | b2 :: rest3 =>
          if isCont b2 then ([b0, b1, b2], rest3) else (replacementBytes, rest2)
        | [] => (replacementBytes, [])
      else (replacementBytes, rest)
    | [] => (replacementBytes, [])
  else if 0xF0 ≤ b0 && b0 ≤ 0xF4 then
    match rest with
    | b1 :: rest2 =>
      if cont4First b0 b1 then
        match rest2 with
        | b2 :: rest3 =>
          if isCont b2 then
            match rest3 with
            | b3 :: rest4 =>
              if isCont b3 then ([b0, b1, b2, b3], rest4)
              else (replacementBytes, rest3)
            | [] => (replacementBytes, [])
          else (replacementBytes, rest2)
        | [] => (replacementBytes, [])
      else (replacementBytes, rest)
    | [] => (replacementBytes, [])
  else (replacementBytes, rest)

/-- Fuel-driven loop of `from_utf8_lossy`. -/
def utf8LossyF : Nat → List Nat → List Nat
  | 0, _ => []
  | _ + 1, [] => []
  | fuel + 1, b0 :: rest =>
    (utf8Step b0 rest).1 ++ utf8LossyF fuel (utf8Step b0 rest).2

/-- Byte sequence of `String::from_utf8_lossy` applied to `l`. -/
def utf8Lossy (l : List Nat) : List Nat := utf8LossyF l.length l

/-- If the input `b0 :: rest` starts with a well-formed UTF-8 scalar sequence,
the input bytes after that sequence (`str::from_utf8` acceptance, one unit). -/
def utf8ValidStep (b0 : Nat) (rest : List Nat) : Option (List Nat) :=
  if b0 ≤ 0x7F then some rest
  else if 0xC2 ≤ b0 && b0 ≤ 0xDF then
    match rest with
    | b1 :: rest2 => if isCont b1 then some rest2 else none
    | [] => none
  else if 0xE0 ≤ b0 && b0 ≤ 0xEF then
    match rest with
    | b1 :: b2 :: rest3 =>
      if cont3First b0 b1 && isCont b2 then some rest3 else none
    | _ => none
  else if 0xF0 ≤ b0 && b0 ≤ 0xF4 then
    match rest with
    | b1 :: b2 :: b3 :: rest4 =>
      if cont4First b0 b1 && isCont b2 && isCont b3 then some rest4 else none
    | _ => none
  else none

/-- Fuel-driven well-formedness check. -/
def validUtf8F : Nat → List Nat → Bool
  | 0, data => data.isEmpty
  | _ + 1, [] => true
  | fuel + 1, b0 :: rest =>
    match utf8ValidStep b0 rest with
    | some tail => validUtf8F fuel tail
    | none => false

/-- Is the byte list well-formed UTF-8 (Rust `str::from_utf8` succeeds)? -/
def validUtf8 (l : List Nat) : Bool := validUtf8F l.length l

/-- `data_clone[i] += cipher as u8` on bytes: the `u16` cipher is truncated to
`u8` and added with wrap-around (release-build semantics). -/
def addByte (b c : Nat) : Nat := (b + c % 256) % 256

/-- One iteration of the cipher loop of `decode_text` on `b0 :: rest`
(`b0 = data[off]`): classify `b0` into its range, add the cipher to the last
byte of the 1/2/3/4-byte run, return the mutated run and the bytes after it.
When the last byte of the run lies past the end of the buffer the Rust indexing
`data_clone[off + k]` panics; that case is `none` here. -/
def cipherStep (cipher b0 : Nat) (rest : List Nat) : Option (List Nat × List Nat) :=
  if b0 ≤ 0xbf then some ([addByte b0 cipher], rest)
  else if b0 ≤ 0xdf then
    match rest with
    | b1 :: rest2 => some ([b0, addByte b1 cipher], rest2)
    | _ => none
  else if b0 ≤ 0xef then
    match rest with
    | b1 :: b2 :: rest3 => some ([b0, b1, addByte b2 cipher], rest3)
    | _ => none
  else
    match rest with
    | b1 :: b2 :: b3 :: rest4 => some ([b0, b1, b2, addByte b3 cipher], rest4)
    | _ => none

/-- Fuel-driven cipher loop (`while off < data.len()`). -/
def applyCipherF (cipher : Nat) : Nat → List Nat → Option (List Nat)
  | 0, [] => some []
  | 0, _ :: _ => none
  | _ + 1, [] => some []
  | fuel + 1, b0 :: rest =>
    match cipherStep cipher b0 rest with
    | some (run, tail) => (applyCipherF cipher fuel tail).map (fun t => run ++ t)
    | none => none

/-- The whole cipher loop of `decode_text` over a buffer. -/
def applyCipher (cipher : Nat) (data : List Nat) : Option (List Nat) :=
  applyCipherF cipher data.length data

/-- `decode_text` from `src/text.rs`: zero cipher is a plain lossy UTF-8
decode; otherwise the cipher loop runs first.  `none` models the Rust panic
(out-of-bounds index) on a buffer whose final run is truncated.  The function
does not depend on the archive generation; both generations call it with their
part bytes and cipher shift. -/
def decode_text (data : List Nat) (cipher : Nat) : Option (List Nat) :=
  if cipher = 0 then some (utf8Lossy data)
  else (applyCipher cipher data).map utf8Lossy

/-- Spec-side description of one greedy cipher run: the run (leading byte plus
its continuation bytes, length 1/2/3/4 decided by the leading byte range
`0x00-0xBF` / `0xC0-0xDF` / `0xE0-0xEF` / `0xF0-0xFF`) and the remaining tail;
`none` when the run is truncated by the end of the buffer. -/
def runStep (b0 : Nat) (rest : List Nat) : Option (List Nat × List Nat) :=
  if b0 ≤ 0xbf then some ([b0], rest)
  else if b0 ≤ 0xdf then
    match rest with
    | b1 :: rest2 => some ([b0, b1], rest2)
    | _ => none
  else if b0 ≤ 0xef then
    match rest with
    | b1 :: b2 :: rest3 => some ([b0, b1, b2], rest3)
    | _ => none
  else
    match rest with
    | b1 :: b2 :: b3 :: rest4 => some ([b0, b1, b2, b3], rest4)
    | _ => none

/-- Greedy left-to-right decomposition of a buffer into cipher runs, as the
spec describes them; `none` when the final run is truncated. -/
def cipherRunsF : Nat → List Nat → Option (List (List Nat))
  | 0, [] => some []
  | 0, _ :: _ => none
  | _ + 1, [] => some []
  | fuel + 1, b0 :: rest =>
    match runStep b0 rest with
    | some (run, tail) => (cipherRunsF fuel tail).map (fun rs => run :: rs)
    | none => none

/-- Greedy run decomposition of a whole buffer. -/
def cipherRuns (data : List Nat) : Option (List (List Nat)) :=
  cipherRunsF data.length data

/-- Add the cipher to the last byte of a run, leaving the other bytes alone. -/
def shiftLast (c : Nat) : List Nat → List Nat
  | [] => []
  | [b] => [addByte b c]
  | b :: b1 :: rest => b :: shiftLast c (b1 :: rest)

/-! ## Byte-stream model (`std::io::Cursor` over a byte buffer)

Used by the relative-offset decoders of `src/text.rs`.  A stream is an
immutable byte buffer plus a cursor; reads fail (`binrw` error) when they would
run past the end, `Seek::seek(Current(d))` fails on a negative final position
and is allowed to land past the end, `Seek::seek(Start(p))` always succeeds. -/

/-- A byte stream: buffer plus cursor position. -/
structure ByteStream where
  data : List Nat
  pos : Nat
deriving DecidableEq, Repr

/-- Read `n` raw bytes at the cursor, advancing it; `none` on a short read. -/
def readBytes (s : ByteStream) (n : Nat) : Option (List Nat × ByteStream) :=
  if s.pos + n ≤ s.data.length then
    some ((s.data.drop s.pos).take n, ⟨s.data, s.pos + n⟩)
  else none

/-- Value of a byte list in the given byte order. -/
def endianVal (e : Endian) (bytes : List Nat) : Nat :=
  match e with
  | .little => leVal bytes
  | .big => leVal bytes.reverse

/-- Two's-complement reinterpretation of a `w`-byte unsigned value. -/
def toSigned (w v : Nat) : Int :=
  if v < 2 ^ (8 * w - 1) then (v : Int) else (v : Int) - 2 ^ (8 * w)

/-- `reader.read_type` for a `w`-byte unsigned integer field. -/
def readUInt (w : Nat) (e : Endian) (s : ByteStream) :
    Option (Nat × ByteStream) :=
  (readBytes s w).map (fun p => (endianVal e p.1, p.2))

/-- `reader.read_type` for a `w`-byte signed (two's-complement) integer. -/
def readSInt (w : Nat) (e : Endian) (s : ByteStream) :
    Option (Int × ByteStream) :=
  (readBytes s w).map (fun p => (toSigned w (endianVal e p.1), p.2))

/-- `reader.seek(SeekFrom::Start(p))`. -/
def seekStart (s : ByteStream) (p : Nat) : ByteStream := ⟨s.data, p⟩

/-- `reader.seek(SeekFrom::Current(d))`: fails on a negative final position. -/
def seekCur (s : ByteStream) (d : Int) : Option ByteStream :=
  if 0 ≤ (s.pos : Int) + d then some ⟨s.data, ((s.pos : Int) + d).toNat⟩
  else none

/-- Read `n` consecutive elements with the element decoder. -/
def readN (elemRead : ByteStream → Option (α × ByteStream)) :
    Nat → ByteStream → Option (List α × ByteStream)
  | 0, s => some ([], s)
  | n + 1, s =>
    match elemRead s with
    | some (x, s1) => (readN elemRead n s1).map (fun p => (x :: p.1, p.2))
    | none => none

/-! ## Relative-offset decoders (`src/text.rs` lines 24-191)

`_TablePointer<O, C, T>` and `_RelPointer<O, T>` are generic over the offset
width `O` (i32/i64), the count width `C` (u32/u64) and the element type `T`;
the embedding is generic over the byte widths `wo`/`wc` and over the element
decoder `elemRead`. -/

/-- Decoded `_TablePointer`: `offset_base` (stream position after the count,
before the offset), the raw offset, the count and the element data. -/
structure TablePointer (α : Type) where
  offset_base : Nat
  offset : Int
  count : Nat
  data : List α
deriving DecidableEq, Repr

/-- `_TablePointer::read_options` (`src/text.rs` lines 43-73): read the count,
remember `offset_base`, read the offset, remember `offset_save`, seek to
`offset_base` then by `offset + 16`, read `count` elements, restore the cursor
to `offset_save`. -/
def TablePointer.read_options (wc wo : Nat) (e : Endian)
    (elemRead : ByteStream → Option (α × ByteStream)) (s : ByteStream) :
    Option (TablePointer α × ByteStream) :=
  (readUInt wc e s).bind fun cs =>
    (readSInt wo e cs.2).bind fun os =>
      (seekCur (seekStart os.2 cs.2.pos) (os.1 + 16)).bind fun s3 =>
        (readN elemRead cs.1 s3).bind fun dt =>
          some (⟨cs.2.pos, os.1, cs.1, dt.1⟩, seekStart dt.2 os.2.pos)

/-- Decoded `_RelPointer`: `offset_base` (stream position of the offset
field), the raw offset and the decoded value. -/
structure RelPointer (α : Type) where
  offset_base : Nat
  offset : Int
  data : α
deriving DecidableEq, Repr

/-- `_RelPointer::read_options` (`src/text.rs` lines 140-164): remember
`offset_base`, read the offset, seek to `offset_base` then by `offset` (no +16
adjustment), read one element, restore the cursor to just after the offset
field. -/
def RelPointer.read_options (wo : Nat) (e : Endian)
    (elemRead : ByteStream → Option (α × ByteStream)) (s : ByteStream) :
    Option (RelPointer α × ByteStream) :=
  (readSInt wo e s).bind fun os =>
    (seekCur (seekStart os.2 s.pos) os.1).bind fun s2 =>
      (elemRead s2).bind fun dt =>
        some (⟨s.pos, os.1, dt.1⟩, seekStart dt.2 os.2.pos)

/-- Element decoder for `u32` little-endian records (used to instantiate the
round-trip statement with fixed-size records). -/
def readU32LE (s : ByteStream) : Option (Nat × ByteStream) :=
  readUInt 4 .little s

/-- An encoded `_TablePointer<i64, u64, u32>` buffer starting at stream
position 0: the count on 8 bytes little-endian, the offset `o ≥ 0` on 8 bytes,
then zero filler so that the `u32` records start at byte `8 + o + 16` (offset
relative to `offset_base = 8`, plus the fixed +16 adjustment). -/
def encodeTable64 (elems : List Nat) (o : Nat) : List Nat :=
  leBytes 8 elems.length ++ leBytes 8 o ++
    List.replicate (o + 8) 0 ++ (elems.map (leBytes 4)).flatten

/-! ## Raw-string-blob extraction (`read_raw_string_blob`, `src/scanner.rs`
lines 169-213)

The function seeks to `offset + 4`, reads the length field (legacy "D1"
generation: big-endian `u32`, buffer base `offset + 8`; current generation:
little-endian `u64`, buffer base `offset + 12`), reads that many bytes, and
splits them on null bytes.  Any read failure aborts the closure with the
strings collected so far (necessarily none, since reads precede the loop).
The `package_manager().version.is_d1()` global is passed as the `isD1`
parameter.  Strings are lists of code points (each byte is pushed as a
`char`). -/

/-- The splitting loop of `read_raw_string_blob`: walk the buffer with index
`i`, current run start `start` and accumulated bytes `cur`; at each null byte
push `(base + start, cur)` if `cur` is nonempty and reset `start` to `i + 1`;
after the loop push a nonempty trailing `cur`. -/
def splitRawStrings (base : Nat) : List Nat → Nat → Nat → List Nat →
    List (Nat × List Nat)
  | [], _, start, cur => if cur.isEmpty then [] else [(base + start, cur)]
  | b :: rest, i, start, cur =>
    if b = 0 then
      if cur.isEmpty then splitRawStrings base rest (i + 1) (i + 1) []
      else (base + start, cur) :: splitRawStrings base rest (i + 1) (i + 1) []
    else splitRawStrings base rest (i + 1) start (cur ++ [b])

/-- `read_raw_string_blob` from `src/scanner.rs`; a failed read leaves the
strings collected so far, which is always the empty list (`Option.getD []`). -/
def read_raw_string_blob (isD1 : Bool) (data : List Nat) (offset : Nat) :
    List (Nat × List Nat) :=
  if isD1 then
    (((readUInt 4 .big ⟨data, offset + 4⟩).bind fun p =>
      (readBytes p.2 p.1).map fun q =>
        splitRawStrings (offset + 4 + 4) q.1 0 0 []).getD [])
  else
    (((readUInt 8 .little ⟨data, offset + 4⟩).bind fun p =>
      (readBytes p.2 p.1).map fun q =>
        splitRawStrings (offset + 4 + 8) q.1 0 0 []).getD [])

/-- Claim-side splitting, first half: *all* null-separated runs of the buffer
with their offsets, empty runs included (`n` nulls give `n + 1` runs). -/
def splitNullAll (base : Nat) : List Nat → Nat → Nat → List Nat →
    List (Nat × List Nat)
  | [], _, start, cur => [(base + start, cur)]
  | b :: rest, i, start, cur =>
    if b = 0 then (base + start, cur) :: splitNullAll base rest (i + 1) (i + 1) []
    else splitNullAll base rest (i + 1) start (cur ++ [b])

/-- Claim-side splitting, second half: discard only the trailing empty runs,
preserving all others (the spec sentence for C7, to be compared with the
code). -/
def splitNullSpec (base : Nat) (buf : List Nat) : List (Nat × List Nat) :=
  ((splitNullAll base buf 0 0 []).reverse.dropWhile (fun p => p.2.isEmpty)).reverse

/-! ## Per-entry scanner (`scan_file`, `src/scanner.rs` lines 100-167) -/

/-- `ScannerContext` from `src/scanner.rs` (lines 45-50).  The `IntSet`s are
modelled as membership lists.  `is_pkg_file` is `TagHash::is_pkg_file` from the
external `destiny_pkg` crate (the package-file-reference sub-predicate),
abstracted as a field since the crate is outside this repository. -/
structure ScannerContext where
  valid_file_hashes : List Nat
  valid_file_hashes64 : List Nat
  known_string_hashes : List Nat
  endian : Endian
  is_pkg_file : Nat → Bool

/-- `scan_file` from `src/scanner.rs`: walk the complete 4-byte windows
(`chunks_exact(4)`, offset `i * 4`) recording package-file references, raw
string blobs at the `0x80800065` magic and known string hashes (excluding the
reserved `0x811c9dc5`), then the complete 8-byte windows (offset `i * 8`)
recording valid 64-bit references.  The `isD1` flag reaches
`read_raw_string_blob` (a global in the source). -/
def scan_file (context : ScannerContext) (isD1 : Bool) (data : List Nat) :
    ScanResult :=
  { successful := true
    file_hashes := (List.range (data.length / 4)).filterMap (fun i =>
      let value := u32_from_endian context.endian ((data.drop (i * 4)).take 4)
      if context.is_pkg_file value &&
          decide (value ∈ context.valid_file_hashes) then
        some (i * 4, value)
      else none)
    file_hashes64 := (List.range (data.length / 8)).filterMap (fun i =>
      let value := u64_from_endian context.endian ((data.drop (i * 8)).take 8)
      if decide (value ∈ context.valid_file_hashes64) then some (i * 8, value)
      else none)
    string_hashes := (List.range (data.length / 4)).filterMap (fun i =>
      let value := u32_from_endian context.endian ((data.drop (i * 4)).take 4)
      if value ≠ 0x811c9dc5 && decide (value ∈ context.known_string_hashes) then
        some (i * 4, value)
      else none)
    raw_strings := ((List.range (data.length / 4)).map (fun i =>
      if u32_from_endian context.endian ((data.drop (i * 4)).take 4) =
          0x80800065 then
        (read_raw_string_blob isD1 data (i * 4)).map (fun p => p.2)
      else [])).flatten
    references := [] }

/-! ## Reference graph transform (`transform_tag_cache`, `src/scanner.rs`
lines 492-567)

`IntMap` is modelled by an association list with distinct keys (its iteration
order is unspecified in Rust; the fold order here is one such order, and the
proved properties are order-insensitive).  The external 64-to-32 lookup table
(`package_manager().hash64_table`) is the `hash64_table` parameter; the
package-directory timestamp read at the end of the function is the `timestamp`
parameter. -/

/-- `HashMap::get` on an association list. -/
def alistGet {α : Type} (m : List (Nat × α)) (k : Nat) : Option α :=
  (m.find? (fun p => p.1 == k)).map (fun p => p.2)

/-- `HashMap::insert`: replace the binding in place, or append a new one. -/
def alistInsert {α : Type} (m : List (Nat × α)) (k : Nat) (v : α) :
    List (Nat × α) :=
  if (m.find? (fun p => p.1 == k)).isSome then
    m.map (fun p => if p.1 == k then (k, v) else p)
  else m ++ [(k, v)]

/-- `direct_reference_cache.entry(t)`: push `k2` onto an occupied entry, or
insert `vec![k2]` into a vacant one. -/
def entryPush (m : List (Nat × List Nat)) (t k2 : Nat) :
    List (Nat × List Nat) :=
  match alistGet m t with
  | some v => alistInsert m t (v ++ [k2])
  | none => alistInsert m t [k2]

/-- Pass 1 (gather): the reverse mapping target → ordered sources.  For every
scanned tag `k2`, append `k2` under each of its `file_hashes` targets, and
under the 64-to-32 resolution of each of its `file_hashes64` targets
(unresolvable entries are dropped). -/
def gatherRefs (hash64_table : Nat → Option Nat)
    (cache : List (Nat × ScanResult)) : List (Nat × List Nat) :=
  cache.foldl (fun drc kv =>
    kv.2.file_hashes64.foldl (fun d t64 =>
      match hash64_table t64.2 with
      | some h32 => entryPush d h32 kv.1
      | none => d)
      (kv.2.file_hashes.foldl (fun d t32 => entryPush d t32.2 kv.1) drc)) []

/-- Pass 2, first half (apply): every scanned tag goes into the new cache; its
`references` are replaced by the reverse-mapping entry when one exists. -/
def applyRefs (drc : List (Nat × List Nat))
    (cache : List (Nat × ScanResult)) : List (Nat × ScanResult) :=
  cache.foldl (fun nc kv =>
    alistInsert nc kv.1
      (match alistGet drc kv.1 with
       | some refs => { kv.2 with references := refs }
       | none => kv.2)) []

/-- Pass 2, second half (remaining non-structure tags): every reverse-mapping
key with a nonempty source list that is not already present gets a placeholder
`ScanResult` (default fields, `references` from the mapping). -/
def addRemaining (drc : List (Nat × List Nat))
    (hashes1 : List (Nat × ScanResult)) : List (Nat × ScanResult) :=
  drc.foldl (fun nc kv =>
    if ¬ kv.2.isEmpty ∧ alistGet nc kv.1 = none then
      alistInsert nc kv.1 { ScanResult.default with references := kv.2 }
    else nc) hashes1

/-- `transform_tag_cache` from `src/scanner.rs`. -/
def transform_tag_cache (hash64_table : Nat → Option Nat) (timestamp : Nat)
    (cache : List (Nat × ScanResult)) : TagCache :=
  { timestamp := timestamp
    version := currentCacheVersion
    hashes :=
      addRemaining (gatherRefs hash64_table cache)
        (applyRefs (gatherRefs hash64_table cache) cache) }

/-! ## String-map construction (`create_stringmap_d2` / `create_stringmap_d1`,
`src/text.rs` lines 337-428)

Both functions iterate string containers obtained from the external package
manager, decode each container (hash table, language data, combinations,
parts) and run `tmp_map.entry(*hash).or_default().insert(final_string)` for
every `(combination, hash)` pair of `string_combinations.iter().zip(
string_hashes.iter())`.  The per-container decoding runs through the external
package-manager reader, so the embedding abstracts each container to its
decoded outcome: the header's hash list paired with the list of decoded
combination strings (1:1 by position).  The key structure is the source's:
`create_stringmap_d1` skips the reserved hash (`if *hash == 0x811c9dc5 {
continue; }`, line 404); `create_stringmap_d2` has no such check. -/

/-- `tmp_map.entry(hash).or_default().insert(s)`: insert into the `HashSet`
under a key (sets modelled as duplicate-free lists). -/
def stringMapInsert (m : List (Nat × List (List Nat))) (k : Nat)
    (s : List Nat) : List (Nat × List (List Nat)) :=
  match alistGet m k with
  | some v => alistInsert m k (if s ∈ v then v else v ++ [s])
  | none => alistInsert m k [s]

/-- `create_stringmap_d2` over the abstracted containers
`(string_hashes, decoded combination strings)`: every zipped pair is
inserted; no hash is excluded. -/
def create_stringmap_d2 (containers : List (List Nat × List (List Nat))) :
    List (Nat × List (List Nat)) :=
  containers.foldl (fun m c =>
    (c.2.zip c.1).foldl (fun m p => stringMapInsert m p.2 p.1) m) []

/-- `create_stringmap_d1` over the abstracted containers: same loop, but a
pair whose hash is the reserved `0x811c9dc5` is skipped. -/
def create_stringmap_d1 (containers : List (List Nat × List (List Nat))) :
    List (Nat × List (List Nat)) :=
  containers.foldl (fun m c =>
    (c.2.zip c.1).foldl (fun m p =>
      if p.2 = 0x811c9dc5 then m else stringMapInsert m p.2 p.1) m) []

/-! ## Theorems -/

/-- Successful raw read: cursor advances by `n`, bytes are the slice there. -/
theorem readBytes_some {s : ByteStream} {n : Nat} {bs : List Nat}
    {s1 : ByteStream} (h : readBytes s n = some (bs, s1)) :
    s1 = ⟨s.data, s.pos + n⟩ ∧ bs = (s.data.drop s.pos).take n ∧
      s.pos + n ≤ s.data.length := by
  unfold readBytes at h
  split_ifs at h with hle
  simp only [Option.some.injEq, Prod.mk.injEq] at h
  exact ⟨h.2.symm, h.1.symm, hle⟩

/-- Successful unsigned-integer read: cursor advances by `w`. -/
theorem readUInt_some {w : Nat} {e : Endian} {s : ByteStream} {v : Nat}
    {s1 : ByteStream} (h : readUInt w e s = some (v, s1)) :
    s1 = ⟨s.data, s.pos + w⟩ ∧ v = endianVal e ((s.data.drop s.pos).take w) ∧
      s.pos + w ≤ s.data.length := by
  unfold readUInt at h
  cases hb : readBytes s w with
  | none => rw [hb] at h; simp at h
  | some p =>
    obtain ⟨bs, t⟩ := p
    rw [hb] at h
    simp only [Option.map_some', Option.some.injEq, Prod.mk.injEq] at h
    obtain ⟨ht, hbs, hle⟩ := readBytes_some hb
    exact ⟨h.2 ▸ ht, by rw [← h.1, hbs], hle⟩

/-- Successful signed-integer read: cursor advances by `w`. -/
theorem readSInt_some {w : Nat} {e : Endian} {s : ByteStream} {v : Int}
    {s1 : ByteStream} (h : readSInt w e s = some (v, s1)) :
    s1 = ⟨s.data, s.pos + w⟩ ∧
      v = toSigned w (endianVal e ((s.data.drop s.pos).take w)) ∧
      s.pos + w ≤ s.data.length := by
  unfold readSInt at h
  cases hb : readBytes s w with
  | none => rw [hb] at h; simp at h
  | some p =>
    obtain ⟨bs, t⟩ := p
    rw [hb] at h
    simp only [Option.map_some', Option.some.injEq, Prod.mk.injEq] at h
    obtain ⟨ht, hbs, hle⟩ := readBytes_some hb
    exact ⟨h.2 ▸ ht, by rw [← h.1, hbs], hle⟩

/-- Successful relative seek: non-negative target, cursor set there. -/
theorem seekCur_some {s : ByteStream} {d : Int} {t : ByteStream}
    (h : seekCur s d = some t) :
    0 ≤ (s.pos : Int) + d ∧ t = ⟨s.data, ((s.pos : Int) + d).toNat⟩ := by
  unfold seekCur at h
  split_ifs at h with h0
  exact ⟨h0, by simpa using h.symm⟩

/-- Core facts about a successful `_TablePointer` decode: `offset_base` is the
position after the count field (`P1`); the elements are read by running the
element decoder `count` times from byte position `P1 + offset + 16` of the same
buffer; the final cursor sits immediately after the offset field. -/
theorem tablePointer_read_core {α : Type} {wc wo : Nat} {e : Endian}
    {elemRead : ByteStream → Option (α × ByteStream)} {s : ByteStream}
    {tp : TablePointer α} {s' : ByteStream}
    (h : TablePointer.read_options wc wo e elemRead s = some (tp, s')) :
    tp.offset_base = s.pos + wc ∧
    0 ≤ ((s.pos + wc : Nat) : Int) + (tp.offset + 16) ∧
    (∃ t, readN elemRead tp.count
        ⟨s.data, (((s.pos + wc : Nat) : Int) + (tp.offset + 16)).toNat⟩ =
          some (tp.data, t)) ∧
    s'.pos = s.pos + wc + wo := by
  unfold TablePointer.read_options at h
  cases hu : readUInt wc e s with
  | none => rw [hu] at h; simp at h
  | some p1 =>
    obtain ⟨count, s1⟩ := p1
    rw [hu] at h
    simp only [Option.bind] at h
    cases hi : readSInt wo e s1 with
    | none => rw [hi] at h; simp at h
    | some p2 =>
      obtain ⟨offset, s2⟩ := p2
      rw [hi] at h
      simp only [Option.bind] at h
      cases hk : seekCur (seekStart s2 s1.pos) (offset + 16) with
      | none => rw [hk] at h; simp at h
      | some s3 =>
        rw [hk] at h
        simp only [Option.bind] at h
        cases hn : readN elemRead count s3 with
        | none => rw [hn] at h; simp at h
        | some p3 =>
          obtain ⟨data, s4⟩ := p3
          rw [hn] at h
          simp only [Option.bind, Option.some.injEq, Prod.mk.injEq] at h
          obtain ⟨htp, hs'⟩ := h
          obtain ⟨hs1, -, -⟩ := readUInt_some hu
          obtain ⟨hs2, -, -⟩ := readSInt_some hi
          obtain ⟨hge, hs3⟩ := seekCur_some hk
          subst hs1 hs2 htp
          simp only [seekStart] at hge hs3 ⊢
          refine ⟨by trivial, hge, ⟨s4, ?_⟩, ?_⟩
          · rw [← hs3]; exact hn
          · rw [← hs']; simp [seekStart]

/-- Core facts about a successful `_RelPointer` decode: `offset_base` is the
position of the offset field (`P0`); the single element is read from byte
position `P0 + offset` (no +16 adjustment) of the same buffer; the final
cursor sits immediately after the offset field. -/
theorem relPointer_read_core {α : Type} {wo : Nat} {e : Endian}
    {elemRead : ByteStream → Option (α × ByteStream)} {s : ByteStream}
    {rp : RelPointer α} {s' : ByteStream}
    (h : RelPointer.read_options wo e elemRead s = some (rp, s')) :
    rp.offset_base = s.pos ∧
    0 ≤ (s.pos : Int) + rp.offset ∧
    (∃ t, elemRead ⟨s.data, ((s.pos : Int) + rp.offset).toNat⟩ =
      some (rp.data, t)) ∧
    s'.pos = s.pos + wo := by
  unfold RelPointer.read_options at h
  cases hi : readSInt wo e s with
  | none => rw [hi] at h; simp at h
  | some p1 =>
    obtain ⟨offset, s1⟩ := p1
    rw [hi] at h
    simp only [Option.bind] at h
    cases hk : seekCur (seekStart s1 s.pos) offset with
    | none => rw [hk] at h; simp at h
    | some s2 =>
      rw [hk] at h
      simp only [Option.bind] at h
      cases he : elemRead s2 with
      | none => rw [he] at h; simp at h
      | some p2 =>
        obtain ⟨data, s3⟩ := p2
        rw [he] at h
        simp only [Option.bind, Option.some.injEq, Prod.mk.injEq] at h
        obtain ⟨hrp, hs'⟩ := h
        obtain ⟨hs1, -, -⟩ := readSInt_some hi
        obtain ⟨hge, hs2⟩ := seekCur_some hk
        subst hs1 hrp
        simp only [seekStart] at hge hs2 ⊢
        refine ⟨by trivial, hge, ⟨s3, ?_⟩, ?_⟩
        · rw [← hs2]; exact he
        · rw [← hs']; simp [seekStart]

theorem leBytes_length (w v : Nat) : (leBytes w v).length = w := by
  induction w generalizing v with
  | zero => rfl
  | succ n ih => simp [leBytes, ih]

theorem leVal_leBytes (w v : Nat) : leVal (leBytes w v) = v % 2 ^ (8 * w) := by
  induction w generalizing v with
  | zero => simp [leBytes, leVal, Nat.mod_one]
  | succ n ih =>
    simp only [leBytes, leVal, ih]
    have hpow : (2 : Nat) ^ (8 * (n + 1)) = 256 * 2 ^ (8 * n) := by
      rw [show 8 * (n + 1) = 8 + 8 * n by ring, pow_add]
      norm_num
    rw [hpow, Nat.mod_mul]

/-- Reading `mid.length` raw bytes at position `pre.length` of
`pre ++ (mid ++ post)` yields `mid`. -/
theorem readBytes_concat (pre mid post buf : List Nat) (p : Nat)
    (hbuf : buf = pre ++ (mid ++ post)) (hp : p = pre.length) :
    readBytes ⟨buf, p⟩ mid.length = some (mid, ⟨buf, p + mid.length⟩) := by
  subst hbuf hp
  have hlen : pre.length + mid.length ≤ (pre ++ (mid ++ post)).length := by
    simp [List.length_append]
  unfold readBytes
  rw [if_pos hlen]
  simp [List.drop_left, List.take_left]

/-- Reading a `w`-byte little-endian unsigned field out of its encoding. -/
theorem readUInt_concat (w v : Nat) (pre post buf : List Nat) (p : Nat)
    (hbuf : buf = pre ++ (leBytes w v ++ post)) (hp : p = pre.length)
    (hv : v < 2 ^ (8 * w)) :
    readUInt w .little ⟨buf, p⟩ = some (v, ⟨buf, p + w⟩) := by
  have h := readBytes_concat pre (leBytes w v) post buf p hbuf hp
  rw [leBytes_length] at h
  unfold readUInt
  rw [h]
  simp [endianVal, leVal_leBytes, Nat.mod_eq_of_lt hv]

/-- Reading an `i64` little-endian field holding a non-negative value. -/
theorem readSInt_concat_nonneg (o : Nat) (pre post buf : List Nat) (p : Nat)
    (hbuf : buf = pre ++ (leBytes 8 o ++ post)) (hp : p = pre.length)
    (ho : o < 2 ^ 63) :
    readSInt 8 .little ⟨buf, p⟩ = some ((o : Int), ⟨buf, p + 8⟩) := by
  have h := readBytes_concat pre (leBytes 8 o) post buf p hbuf hp
  rw [leBytes_length] at h
  have hv : o < 2 ^ (8 * 8) := lt_trans ho (by norm_num)
  have h63 : o < 2 ^ (8 * 8 - 1) := by
    have h88 : (8 : Nat) * 8 - 1 = 63 := by norm_num
    rw [h88]; exact ho
  have hval : toSigned 8 (endianVal .little (leBytes 8 o)) = (o : Int) := by
    unfold toSigned endianVal
    rw [leVal_leBytes, Nat.mod_eq_of_lt hv, if_pos h63]
  unfold readSInt
  rw [h]
  simp [hval]

/-- Reading back a sequence of `u32` little-endian records out of its
encoding. -/
theorem readN_u32_concat (elems : List Nat) :
    ∀ (pre post buf : List Nat) (p : Nat),
      buf = pre ++ ((elems.map (leBytes 4)).flatten ++ post) →
      p = pre.length → (∀ x ∈ elems, x < 2 ^ 32) →
      readN readU32LE elems.length ⟨buf, p⟩ =
        some (elems, ⟨buf, p + 4 * elems.length⟩) := by
  induction elems with
  | nil =>
    intro pre post buf p _ _ _
    simp [readN]
  | cons x xs ih =>
    intro pre post buf p hbuf hp hlt
    have hx : x < 2 ^ (8 * 4) := by
      have := hlt x (List.mem_cons_self x xs)
      norm_num at this ⊢
      exact this
    have hstep : readU32LE ⟨buf, p⟩ = some (x, ⟨buf, p + 4⟩) := by
      unfold readU32LE
      exact readUInt_concat 4 x pre ((xs.map (leBytes 4)).flatten ++ post)
        buf p (by simp [hbuf, List.append_assoc]) hp hx
    have hrest :
        readN readU32LE xs.length ⟨buf, p + 4⟩ =
          some (xs, ⟨buf, (p + 4) + 4 * xs.length⟩) := by
      refine ih (pre ++ leBytes 4 x) post buf (p + 4) ?_ ?_ ?_
      · simp [hbuf, List.append_assoc]
      · simp [List.length_append, leBytes_length, hp]
      · intro y hy
        exact hlt y (List.mem_cons_of_mem x hy)
    simp only [List.length_cons, readN, hstep, hrest, Option.map_some']
    have : (p + 4) + 4 * xs.length = p + 4 * (xs.length + 1) := by ring
    rw [this]

/-- Decoding an encoded `_TablePointer<i64, u64, u32>` gives back the count,
the offset and the records, with the cursor right after the offset field. -/
theorem tablePointer_roundtrip (elems : List Nat) (o : Nat)
    (he : ∀ x ∈ elems, x < 2 ^ 32) (hn : elems.length < 2 ^ 64)
    (ho : o < 2 ^ 63) :
    TablePointer.read_options 8 8 .little readU32LE
        ⟨encodeTable64 elems o, 0⟩ =
      some (⟨8, (o : Int), elems.length, elems⟩,
        ⟨encodeTable64 elems o, 16⟩) := by
  have hn' : elems.length < 2 ^ (8 * 8) := by
    norm_num at hn ⊢
    exact hn
  have h1 : readUInt 8 .little ⟨encodeTable64 elems o, 0⟩ =
      some (elems.length, ⟨encodeTable64 elems o, 8⟩) := by
    refine readUInt_concat 8 elems.length []
      (leBytes 8 o ++ (List.replicate (o + 8) 0 ++ (elems.map (leBytes 4)).flatten))
      _ 0 ?_ rfl hn'
    simp [encodeTable64, List.append_assoc]
  have h2 : readSInt 8 .little ⟨encodeTable64 elems o, 8⟩ =
      some ((o : Int), ⟨encodeTable64 elems o, 16⟩) := by
    refine readSInt_concat_nonneg o (leBytes 8 elems.length)
      (List.replicate (o + 8) 0 ++ (elems.map (leBytes 4)).flatten) _ 8 ?_ ?_ ho
    · simp [encodeTable64, List.append_assoc]
    · simp [leBytes_length]
  have h3 : seekCur (seekStart (⟨encodeTable64 elems o, 16⟩ : ByteStream) 8)
      ((o : Int) + 16) = some ⟨encodeTable64 elems o, o + 24⟩ := by
    simp only [seekStart, seekCur]
    split_ifs with hpos
    · simp only [Option.some.injEq, ByteStream.mk.injEq]
      refine ⟨by trivial, ?_⟩
      omega
    · exact absurd (by omega) hpos
  have h4 : readN readU32LE elems.length ⟨encodeTable64 elems o, o + 24⟩ =
      some (elems, ⟨encodeTable64 elems o, (o + 24) + 4 * elems.length⟩) := by
    refine readN_u32_concat elems
      (leBytes 8 elems.length ++ (leBytes 8 o ++ List.replicate (o + 8) 0)) []
      _ (o + 24) ?_ ?_ he
    · simp [encodeTable64, List.append_assoc]
    · simp [List.length_append, leBytes_length, List.length_replicate]
      omega
  unfold TablePointer.read_options
  rw [h1]
  simp only [Option.bind]
  rw [h2]
  simp only [Option.bind]
  rw [h3]
  simp only [Option.bind]
  rw [h4]
  simp only [Option.bind]
  simp [seekStart]

/-- **C3.** CountedTable decode semantics and round-trip.  First part: for
every stream on which `_TablePointer` decoding succeeds, with `P1 = s.pos + wc`
the position immediately after the count field, the decoder reads exactly
`count` consecutive elements starting at byte position `P1 + offset + 16` (the
decoded sequence is what the element decoder yields there, in order), and the
final stream position is `P1 + wo`, immediately after the offset field.
Second part: encoding a sequence of fixed-size `u32` records with a matching
count and offset then decoding yields the original sequence, with the cursor
after decode immediately after the offset field (position 16). -/
theorem tablePointer_decode_spec {α : Type} (wc wo : Nat) (e : Endian)
    (elemRead : ByteStream → Option (α × ByteStream)) (s : ByteStream)
    (tp : TablePointer α) (s' : ByteStream)
    (h : TablePointer.read_options wc wo e elemRead s = some (tp, s')) :
    (tp.offset_base = s.pos + wc ∧
     (∃ t, readN elemRead tp.count
        ⟨s.data, (((s.pos + wc : Nat) : Int) + (tp.offset + 16)).toNat⟩ =
          some (tp.data, t)) ∧
     s'.pos = s.pos + wc + wo) ∧
    (∀ (elems : List Nat) (o : Nat), (∀ x ∈ elems, x < 2 ^ 32) →
      elems.length < 2 ^ 64 → o < 2 ^ 63 →
      TablePointer.read_options 8 8 .little readU32LE
          ⟨encodeTable64 elems o, 0⟩ =
        some (⟨8, (o : Int), elems.length, elems⟩,
          ⟨encodeTable64 elems o, 16⟩)) :=
  ⟨⟨(tablePointer_read_core h).1, (tablePointer_read_core h).2.2.1,
    (tablePointer_read_core h).2.2.2⟩,
   fun elems o he hn ho => tablePointer_roundtrip elems o he hn ho⟩

/-- Witness for C3: a concrete two-record table with offset 0. -/
theorem tablePointer_decode_spec_witness :
    ((8 : Nat) = 0 + 8 ∧
     (∃ t, readN readU32LE 2
        ⟨encodeTable64 [3, 5] 0, (((0 + 8 : Nat) : Int) + ((0 : Int) + 16)).toNat⟩ =
          some ([3, 5], t)) ∧
     (16 : Nat) = 0 + 8 + 8) ∧
    TablePointer.read_options 8 8 .little readU32LE
        ⟨encodeTable64 [3, 5] 0, 0⟩ =
      some (⟨8, (0 : Int), 2, [3, 5]⟩, ⟨encodeTable64 [3, 5] 0, 16⟩) :=
  let h := tablePointer_decode_spec 8 8 .little readU32LE
      ⟨encodeTable64 [3, 5] 0, 0⟩ ⟨8, 0, 2, [3, 5]⟩
      ⟨encodeTable64 [3, 5] 0, 16⟩ (by decide)
  ⟨⟨h.1.1, h.1.2.1, h.1.2.2⟩, h.2 [3, 5] 0 (by decide) (by decide) (by decide)⟩

/-- **C4.** Cursor restoration is compositional: a successful `_RelPointer`
decode reads its single value from `P0 + offset` (`P0` the position of the
offset field, no +16 adjustment) and leaves the cursor at `P0 + wo`,
immediately after the offset field; a successful `_TablePointer` decode leaves
the cursor at `s.pos + wc + wo`, immediately after its offset field.  So a
struct with several such fields in sequence decodes each field with the cursor
exactly where an inline value would leave it. -/
theorem pointer_cursor_restoration {α : Type} (wc wo : Nat) (e : Endian)
    (elemRead : ByteStream → Option (α × ByteStream)) (s : ByteStream) :
    (∀ (rp : RelPointer α) (s' : ByteStream),
      RelPointer.read_options wo e elemRead s = some (rp, s') →
      rp.offset_base = s.pos ∧
      (∃ t, elemRead ⟨s.data, ((s.pos : Int) + rp.offset).toNat⟩ =
        some (rp.data, t)) ∧
      s'.pos = s.pos + wo) ∧
    (∀ (tp : TablePointer α) (s' : ByteStream),
      TablePointer.read_options wc wo e elemRead s = some (tp, s') →
      s'.pos = s.pos + wc + wo) :=
  ⟨fun _ _ h => ⟨(relPointer_read_core h).1, (relPointer_read_core h).2.2.1,
     (relPointer_read_core h).2.2.2⟩,
   fun _ _ h => (tablePointer_read_core h).2.2.2⟩

/-- Witness for C4: a concrete `_RelPointer<i64, u32>` whose offset 16 points
at the value 7, and the concrete table of the C3 witness. -/
theorem pointer_cursor_restoration_witness :
    ((0 : Nat) = 0 ∧
     (∃ t, readU32LE
        ⟨[16, 0, 0, 0, 0, 0, 0, 0, 0, 0, 0, 0, 0, 0, 0, 0, 7, 0, 0, 0],
          (((0 : Nat) : Int) + 16).toNat⟩ = some (7, t)) ∧
     (8 : Nat) = 0 + 8) ∧
    (16 : Nat) = 0 + 8 + 8 :=
  let hrel := (pointer_cursor_restoration 8 8 .little readU32LE
      ⟨[16, 0, 0, 0, 0, 0, 0, 0, 0, 0, 0, 0, 0, 0, 0, 0, 7, 0, 0, 0], 0⟩).1
      ⟨0, 16, 7⟩
      ⟨[16, 0, 0, 0, 0, 0, 0, 0, 0, 0, 0, 0, 0, 0, 0, 0, 7, 0, 0, 0], 8⟩
      (by decide)
  let htab := (pointer_cursor_restoration 8 8 .little readU32LE
      ⟨encodeTable64 [3, 5] 0, 0⟩).2 ⟨8, 0, 2, [3, 5]⟩
      ⟨encodeTable64 [3, 5] 0, 16⟩ (by decide)
  ⟨⟨hrel.1, hrel.2.1, hrel.2.2⟩, htab⟩

/-- One cipher-loop iteration is: split off one greedy run and add the cipher
to its last byte. -/
theorem cipherStep_eq_runStep (c b0 : Nat) (rest : List Nat) :
    cipherStep c b0 rest =
      (runStep b0 rest).map (fun p => (shiftLast c p.1, p.2)) := by
  unfold cipherStep runStep
  split_ifs
  · rfl
  · cases rest with
    | nil => rfl
    | cons b1 rest2 => rfl
  · cases rest with
    | nil => rfl
    | cons b1 rest2 =>
      cases rest2 with
      | nil => rfl
      | cons b2 rest3 => rfl
  · cases rest with
    | nil => rfl
    | cons b1 rest2 =>
      cases rest2 with
      | nil => rfl
      | cons b2 rest3 =>
        cases rest3 with
        | nil => rfl
        | cons b3 rest4 => rfl

/-- The fuel-driven cipher loop equals: decompose into greedy runs, shift the
last byte of each run, concatenate (and it succeeds precisely when the
decomposition does). -/
theorem applyCipherF_eq_runs (c : Nat) (fuel : Nat) :
    ∀ data : List Nat,
      applyCipherF c fuel data =
        (cipherRunsF fuel data).map (fun rs => (rs.map (shiftLast c)).flatten) := by
  induction fuel with
  | zero => intro data; cases data <;> rfl
  | succ n ih =>
    intro data
    cases data with
    | nil => rfl
    | cons b0 rest =>
      simp only [applyCipherF, cipherRunsF, cipherStep_eq_runStep]
      cases runStep b0 rest with
      | none => rfl
      | some p =>
        obtain ⟨run, tail⟩ := p
        cases hr : cipherRunsF n tail with
        | none => simp [ih tail, hr]
        | some rs => simp [ih tail, hr]

/-- The whole cipher loop equals the run decomposition with per-run shifts. -/
theorem applyCipher_eq_runs (c : Nat) (data : List Nat) :
    applyCipher c data =
      (cipherRuns data).map (fun rs => (rs.map (shiftLast c)).flatten) :=
  applyCipherF_eq_runs c data.length data

/-- On a well-formed leading sequence, the lossy step copies exactly the
consumed bytes and leaves the same tail. -/
theorem utf8Step_of_valid (b0 : Nat) (rest tail : List Nat)
    (h : utf8ValidStep b0 rest = some tail) :
    (utf8Step b0 rest).1 ++ tail = b0 :: rest ∧
    (utf8Step b0 rest).2 = tail ∧ (utf8Step b0 rest).1 ≠ [] := by
  unfold utf8ValidStep at h
  unfold utf8Step
  split_ifs at h ⊢ with h1 h2 h3 h4
  · obtain rfl : rest = tail := by simpa using h
    simp
  · cases rest with
    | nil => simp at h
    | cons b1 rest2 =>
      by_cases hc : isCont b1
      · simp only [hc, if_true] at h ⊢
        obtain rfl : rest2 = tail := by simpa using h
        simp
      · simp [hc] at h
  · cases rest with
    | nil => simp at h
    | cons b1 rest2 =>
      cases rest2 with
      | nil => simp at h
      | cons b2 rest3 =>
        by_cases hc1 : cont3First b0 b1
        · by_cases hc2 : isCont b2
          · simp only [hc1, hc2, Bool.and_self, if_true] at h ⊢
            obtain rfl : rest3 = tail := by simpa using h
            simp
          · simp [hc1, hc2] at h
        · simp [hc1] at h
  · cases rest with
    | nil => simp at h
    | cons b1 rest2 =>
      cases rest2 with
      | nil => simp at h
      | cons b2 rest3 =>
        cases rest3 with
        | nil => simp at h
        | cons b3 rest4 =>
          by_cases hc1 : cont4First b0 b1
          · by_cases hc2 : isCont b2
            · by_cases hc3 : isCont b3
              · simp only [hc1, hc2, hc3, Bool.and_self, if_true] at h ⊢
                obtain rfl : rest4 = tail := by simpa using h
                simp
              · simp [hc1, hc2, hc3] at h
            · simp [hc1, hc2] at h
          · simp [hc1] at h

/-- The fuel-driven lossy decode is the identity on well-formed input (any
sufficient fuel on either side). -/
theorem utf8LossyF_of_validF :
    ∀ (fuel fuel2 : Nat) (l : List Nat), l.length ≤ fuel → l.length ≤ fuel2 →
      validUtf8F fuel2 l = true → utf8LossyF fuel l = l := by
  intro fuel
  induction fuel with
  | zero =>
    intro fuel2 l h1 _ _
    cases l with
    | nil => rfl
    | cons b rest => simp at h1
  | succ n ih =>
    intro fuel2 l hlen hlen2 hv
    cases l with
    | nil => rfl
    | cons b0 rest =>
      cases fuel2 with
      | zero => simp at hlen2
      | succ m =>
        simp only [validUtf8F] at hv
        cases hs : utf8ValidStep b0 rest with
        | none => rw [hs] at hv; simp at hv
        | some tail =>
          rw [hs] at hv
          obtain ⟨happ, htail, hne⟩ := utf8Step_of_valid b0 rest tail hs
          have hlenstep := congrArg List.length happ
          simp only [List.length_append, List.length_cons] at hlenstep
          have hpos : 0 < (utf8Step b0 rest).1.length :=
            List.length_pos.mpr hne
          simp only [List.length_cons] at hlen hlen2
          have htn : tail.length ≤ n := by omega
          have htm : tail.length ≤ m := by omega
          simp only [utf8LossyF, htail]
          rw [ih m tail htn htm hv]
          exact happ

/-- `from_utf8_lossy` is the identity on well-formed UTF-8 input. -/
theorem utf8Lossy_of_valid (l : List Nat) (h : validUtf8 l = true) :
    utf8Lossy l = l :=
  utf8LossyF_of_validF l.length l.length l le_rfl le_rfl h

/-- **C2.** Cache load protocol: with the stored version equal to the current
one, a timestamp strictly below the package directory's modification time is
discarded (full rebuild) while a timestamp not below it is reused unchanged; a
lesser stored version rebuilds silently; a greater stored version terminates
the process with exit code 21 and never yields a usable cache. -/
theorem load_tag_cache_protocol (cache : TagCache) (pt : Nat) :
    (cache.version = currentCacheVersion → cache.timestamp < pt →
      load_tag_cache (some cache) pt = .rebuild) ∧
    (cache.version = currentCacheVersion → ¬ cache.timestamp < pt →
      load_tag_cache (some cache) pt = .reuse cache) ∧
    (cache.version < currentCacheVersion →
      load_tag_cache (some cache) pt = .rebuild) ∧
    (currentCacheVersion < cache.version →
      load_tag_cache (some cache) pt = .fatalExit 21) := by
  refine ⟨?_, ?_, ?_, ?_⟩ <;> intro hv
  · intro ht
    simp [load_tag_cache, hv, Nat.compare_eq_eq.mpr rfl, ht]
  · intro ht
    simp [load_tag_cache, hv, Nat.compare_eq_eq.mpr rfl, ht]
  · simp [load_tag_cache, Nat.compare_eq_lt.mpr hv]
  · simp [load_tag_cache, Nat.compare_eq_gt.mpr hv]

/-- Witness for C2: all four branches exercised at concrete caches. -/
theorem load_tag_cache_protocol_witness :
    load_tag_cache (some ⟨0, 3, []⟩) 1 = .rebuild ∧
    load_tag_cache (some ⟨5, 3, []⟩) 5 = .reuse ⟨5, 3, []⟩ ∧
    load_tag_cache (some ⟨0, 2, []⟩) 0 = .rebuild ∧
    load_tag_cache (some ⟨0, 4, []⟩) 0 = .fatalExit 21 :=
  ⟨(load_tag_cache_protocol ⟨0, 3, []⟩ 1).1 rfl (by decide),
   ((load_tag_cache_protocol ⟨5, 3, []⟩ 5).2.1 rfl (by decide)),
   ((load_tag_cache_protocol ⟨0, 2, []⟩ 0).2.2.1 (by decide)),
   ((load_tag_cache_protocol ⟨0, 4, []⟩ 0).2.2.2 (by decide))⟩

/-- The splitting loop of `read_raw_string_blob` keeps exactly the nonempty
null-separated runs, with their offsets. -/
theorem splitRawStrings_eq_filter (base : Nat) :
    ∀ (buf : List Nat) (i start : Nat) (cur : List Nat),
      splitRawStrings base buf i start cur =
        (splitNullAll base buf i start cur).filter (fun p => !p.2.isEmpty) := by
  intro buf
  induction buf with
  | nil =>
    intro i start cur
    by_cases hc : cur.isEmpty <;>
      simp [splitRawStrings, splitNullAll, List.filter, hc]
  | cons b rest ih =>
    intro i start cur
    by_cases hb : b = 0
    · by_cases hc : cur.isEmpty <;>
        simp [splitRawStrings, splitNullAll, hb, hc, ih, List.filter]
    · simp [splitRawStrings, splitNullAll, hb, ih]

/-- A `filterMap` over `range n` whose function is `none` away from `i0`
contributes at most the `i0` entry. -/
theorem filterMap_range_single {α : Type} (g : Nat → Option α) (n i0 : Nat)
    (h : ∀ i, i ≠ i0 → g i = none) :
    (List.range n).filterMap g = if i0 < n then (g i0).toList else [] := by
  induction n with
  | zero => simp
  | succ m ih =>
    rw [List.range_succ, List.filterMap_append, ih]
    by_cases hm : i0 < m
    · have hgm : g m = none := h m (by omega)
      have hm1 : i0 < m + 1 := by omega
      simp [hm, hm1, hgm]
    · by_cases he : i0 = m
      · subst he
        simp only [if_neg hm, if_pos (by omega : i0 < i0 + 1)]
        cases hg : g i0 <;> simp [List.filterMap, hg]
      · have hgm : g m = none := h m (fun hEq => he hEq.symm)
        have hm1 : ¬ i0 < m + 1 := by omega
        simp [hm, hm1, hgm]

/-- Counterexample to C7 as stated: on buffer content `"a\x00\x00b"` the
middle empty run (at offset base + 2) is not trailing, yet the code discards
it: the code output and the claim-side split ("discard only trailing empty
runs") differ. -/
theorem read_raw_string_blob_counterexample :
    read_raw_string_blob false
        ([0x65, 0, 0x80, 0x80] ++ (leBytes 8 4 ++ [97, 0, 0, 98])) 0 =
      [(12, [97]), (15, [98])] ∧
    splitNullSpec 12 [97, 0, 0, 98] = [(12, [97]), (14, []), (15, [98])] ∧
    read_raw_string_blob false
        ([0x65, 0, 0x80, 0x80] ++ (leBytes 8 4 ++ [97, 0, 0, 98])) 0 ≠
      splitNullSpec 12 [97, 0, 0, 98] := by
  refine ⟨by decide, by decide, by decide⟩

/-- **C7 (amended).** `read_raw_string_blob` reads the length field just past
the magic (current generation: little-endian 64-bit at `O + 4`, buffer base
`O + 12`; legacy generation: big-endian 32-bit at `O + 4`, buffer base
`O + 8`), splits the length-delimited buffer on null bytes, and returns each
*nonempty* run paired with `buffer base + running index` — every empty run is
discarded, trailing or not.  In particular a 64-bit length of 9 with content
`b"foo\x00bar\x00\x00"` yields exactly `("foo", O+12)` and `("bar", O+16)`,
and the 32-bit legacy variant yields `("foo", O+8)` and `("bar", O+12)`. -/
theorem read_raw_string_blob_spec :
    (∀ (isD1 : Bool) (data : List Nat) (offset size : Nat) (s1 : ByteStream)
        (buf : List Nat) (t : ByteStream),
      readUInt (if isD1 then 4 else 8) (if isD1 then .big else .little)
          ⟨data, offset + 4⟩ = some (size, s1) →
      readBytes s1 size = some (buf, t) →
      read_raw_string_blob isD1 data offset =
        (splitNullAll (offset + 4 + (if isD1 then 4 else 8)) buf 0 0 []).filter
          (fun p => !p.2.isEmpty)) ∧
    read_raw_string_blob false
        ([0x65, 0, 0x80, 0x80] ++
          (leBytes 8 9 ++ [102, 111, 111, 0, 98, 97, 114, 0, 0])) 0 =
      [(12, [102, 111, 111]), (16, [98, 97, 114])] ∧
    read_raw_string_blob true
        ([0x65, 0, 0x80, 0x80] ++
          ([0, 0, 0, 9] ++ [102, 111, 111, 0, 98, 97, 114, 0, 0])) 0 =
      [(8, [102, 111, 111]), (12, [98, 97, 114])] := by
  refine ⟨?_, by decide, by decide⟩
  intro isD1 data offset size s1 buf t h1 h2
  cases isD1 with
  | false =>
    simp only [Bool.false_eq_true, if_false] at h1 ⊢
    unfold read_raw_string_blob
    simp only [Bool.false_eq_true, if_false, h1, Option.some_bind, h2,
      Option.map_some', Option.getD_some]
    exact splitRawStrings_eq_filter (offset + 4 + 8) buf 0 0 []
  | true =>
    simp only [if_true] at h1 ⊢
    unfold read_raw_string_blob
    simp only [if_true, h1, Option.some_bind, h2, Option.map_some',
      Option.getD_some]
    exact splitRawStrings_eq_filter (offset + 4 + 4) buf 0 0 []

/-- Witness for C7 (amended): the general part applied to the concrete
current-generation example blob. -/
theorem read_raw_string_blob_spec_witness :
    read_raw_string_blob false
        ([0x65, 0, 0x80, 0x80] ++
          (leBytes 8 9 ++ [102, 111, 111, 0, 98, 97, 114, 0, 0])) 0 =
      (splitNullAll 12 [102, 111, 111, 0, 98, 97, 114, 0, 0] 0 0 []).filter
        (fun p => !p.2.isEmpty) :=
  read_raw_string_blob_spec.1 false
    ([0x65, 0, 0x80, 0x80] ++
      (leBytes 8 9 ++ [102, 111, 111, 0, 98, 97, 114, 0, 0]))
    0 9 ⟨[0x65, 0, 0x80, 0x80] ++
      (leBytes 8 9 ++ [102, 111, 111, 0, 98, 97, 114, 0, 0]), 12⟩
    [102, 111, 111, 0, 98, 97, 114, 0, 0]
    ⟨[0x65, 0, 0x80, 0x80] ++
      (leBytes 8 9 ++ [102, 111, 111, 0, 98, 97, 114, 0, 0]), 21⟩
    (by decide) (by decide)

/-- **C8.** Per-entry 32-bit scan completeness and exactness: for a 4-byte
aligned offset `o` with `o + 4` inside the buffer, let `v` be the window at
`o` read in the context's byte order.  If `v` satisfies the package-file
sub-predicate and lies in the valid set, `scan_file` records exactly one
`file_hashes` entry at offset `o`, namely `(o, v)`; otherwise it records none
at `o`. -/
theorem scan_file_direct_refs32 (context : ScannerContext) (isD1 : Bool)
    (data : List Nat) (o : Nat) (ho : o % 4 = 0) (hlen : o + 4 ≤ data.length) :
    ((context.is_pkg_file
          (u32_from_endian context.endian ((data.drop o).take 4)) &&
        decide (u32_from_endian context.endian ((data.drop o).take 4) ∈
          context.valid_file_hashes)) = true →
      (scan_file context isD1 data).file_hashes.filter (fun p => p.1 = o) =
        [(o, u32_from_endian context.endian ((data.drop o).take 4))]) ∧
    ((context.is_pkg_file
          (u32_from_endian context.endian ((data.drop o).take 4)) &&
        decide (u32_from_endian context.endian ((data.drop o).take 4) ∈
          context.valid_file_hashes)) = false →
      (scan_file context isD1 data).file_hashes.filter (fun p => p.1 = o) =
        []) := by
  have hdvd : o / 4 * 4 = o := Nat.div_mul_cancel (Nat.dvd_of_mod_eq_zero ho)
  have hfilter :
      (scan_file context isD1 data).file_hashes.filter (fun p => p.1 = o) =
        (List.range (data.length / 4)).filterMap (fun i =>
          ((fun i : Nat =>
            if context.is_pkg_file
                  (u32_from_endian context.endian ((data.drop (i * 4)).take 4)) &&
                decide (u32_from_endian context.endian
                    ((data.drop (i * 4)).take 4) ∈ context.valid_file_hashes)
              then some (i * 4,
                u32_from_endian context.endian ((data.drop (i * 4)).take 4))
              else none) i).filter (fun p => decide (p.1 = o))) :=
    List.filter_filterMap _ _ _
  have hnone : ∀ i, i ≠ o / 4 →
      ((fun i : Nat =>
        if context.is_pkg_file
              (u32_from_endian context.endian ((data.drop (i * 4)).take 4)) &&
            decide (u32_from_endian context.endian
                ((data.drop (i * 4)).take 4) ∈ context.valid_file_hashes)
          then some (i * 4,
            u32_from_endian context.endian ((data.drop (i * 4)).take 4))
          else none) i).filter (fun p => decide (p.1 = o)) = none := by
    intro i hi
    cases hc : (context.is_pkg_file
          (u32_from_endian context.endian ((data.drop (i * 4)).take 4)) &&
        decide (u32_from_endian context.endian
            ((data.drop (i * 4)).take 4) ∈ context.valid_file_hashes)) with
    | true =>
      have hne : i * 4 ≠ o := by omega
      simp [hc, Option.filter, hne]
    | false => simp [hc, Option.filter]
  have hlt : o / 4 < data.length / 4 := by omega
  have hmain := filterMap_range_single _ (data.length / 4) (o / 4) hnone
  rw [if_pos hlt] at hmain
  constructor <;> intro hcond
  · rw [hfilter, hmain]
    simp [hdvd, hcond, Option.filter]
  · rw [hfilter, hmain]
    simp [hdvd, hcond, Option.filter]

/-- Witness for C8: a little-endian context where `0x12345678` is a valid
package-file hash; the window at offset 0 matches (one entry), the window at
offset 4 does not (no entry). -/
theorem scan_file_direct_refs32_witness :
    (scan_file ⟨[0x12345678], [], [], .little, fun v => decide (v = 0x12345678)⟩
        false [0x78, 0x56, 0x34, 0x12, 0, 0, 0, 0]).file_hashes.filter
        (fun p => p.1 = 0) = [(0, 0x12345678)] ∧
    (scan_file ⟨[0x12345678], [], [], .little, fun v => decide (v = 0x12345678)⟩
        false [0x78, 0x56, 0x34, 0x12, 0, 0, 0, 0]).file_hashes.filter
        (fun p => p.1 = 4) = [] :=
  ⟨(scan_file_direct_refs32
      ⟨[0x12345678], [], [], .little, fun v => decide (v = 0x12345678)⟩ false
      [0x78, 0x56, 0x34, 0x12, 0, 0, 0, 0] 0 (by decide) (by decide)).1
      (by decide),
   (scan_file_direct_refs32
      ⟨[0x12345678], [], [], .little, fun v => decide (v = 0x12345678)⟩ false
      [0x78, 0x56, 0x34, 0x12, 0, 0, 0, 0] 4 (by decide) (by decide)).2
      (by decide)⟩

/-- Lookup at a matching head. -/
theorem alistGet_cons_hit {α : Type} (p : Nat × α) (rest : List (Nat × α))
    (k : Nat) (h : p.1 = k) : alistGet (p :: rest) k = some p.2 := by
  unfold alistGet
  rw [List.find?_cons_of_pos _ (by simp [h])]
  rfl

/-- Lookup skips a non-matching head. -/
theorem alistGet_cons_miss {α : Type} (p : Nat × α) (rest : List (Nat × α))
    (k : Nat) (h : p.1 ≠ k) : alistGet (p :: rest) k = alistGet rest k := by
  unfold alistGet
  rw [List.find?_cons_of_neg _ (by simp [h])]

/-- Replacing the value under key `k` does not affect lookups at `k' ≠ k`. -/
theorem alistGet_map_replace {α : Type} (k k' : Nat) (v : α) (hne : k' ≠ k) :
    ∀ m : List (Nat × α),
      alistGet (m.map (fun p => if p.1 == k then (k, v) else p)) k' =
        alistGet m k'
  | [] => rfl
  | p :: rest => by
    rw [List.map_cons]
    by_cases hp : p.1 = k
    · rw [if_pos (by simp [hp])]
      rw [alistGet_cons_miss (k, v) _ k' (Ne.symm hne)]
      rw [alistGet_cons_miss p rest k' (by rw [hp]; exact Ne.symm hne)]
      exact alistGet_map_replace k k' v hne rest
    · rw [if_neg (by simp [hp])]
      by_cases hph : p.1 = k'
      · rw [alistGet_cons_hit _ _ _ hph, alistGet_cons_hit _ _ _ hph]
      · rw [alistGet_cons_miss _ _ _ hph, alistGet_cons_miss _ _ _ hph]
        exact alistGet_map_replace k k' v hne rest

/-- `HashMap::insert` followed by `get`. -/
theorem alistGet_insert {α : Type} :
    ∀ (m : List (Nat × α)) (k k' : Nat) (v : α),
      alistGet (alistInsert m k v) k' = if k' = k then some v else alistGet m k'
  | [], k, k', v => by
    unfold alistInsert
    simp only [List.find?_nil, Option.isSome_none, Bool.false_eq_true,
      if_false, List.nil_append]
    by_cases h : k' = k
    · rw [if_pos h, alistGet_cons_hit _ _ _ h.symm]
    · rw [if_neg h, alistGet_cons_miss _ _ _ (fun hh => h hh.symm)]
  | p :: rest, k, k', v => by
    by_cases hp : p.1 = k
    · have hsome : ((p :: rest).find? (fun q => q.1 == k)).isSome := by
        rw [List.find?_cons_of_pos _ (by simp [hp])]
        rfl
      unfold alistInsert
      rw [if_pos hsome, List.map_cons, if_pos (by simp [hp])]
      by_cases hk : k' = k
      · rw [if_pos hk, alistGet_cons_hit _ _ _ hk.symm]
      · rw [if_neg hk, alistGet_cons_miss (k, v) _ k' (fun hh => hk hh.symm),
          alistGet_cons_miss p rest k' (by rw [hp]; exact fun hh => hk hh.symm)]
        exact alistGet_map_replace k k' v hk rest
    · have hstep : alistInsert (p :: rest) k v = p :: alistInsert rest k v := by
        unfold alistInsert
        rw [List.find?_cons_of_neg _ (by simp [hp])]
        split_ifs with hf
        · rw [List.map_cons, if_neg (by simp [hp])]
        · rfl
      rw [hstep]
      by_cases hph : p.1 = k'
      · have hk : k' ≠ k := fun hh => hp (hph.trans hh)
        rw [if_neg hk, alistGet_cons_hit _ _ _ hph,
          alistGet_cons_hit _ _ _ hph]
      · rw [alistGet_cons_miss _ _ _ hph, alistGet_insert rest k k' v,
          alistGet_cons_miss p rest k' hph]

/-- `entry(t).push/insert` puts the pushed source at the end of the `t` entry
and leaves every other entry alone. -/
theorem alistGet_entryPush (m : List (Nat × List Nat)) (t k2 k' : Nat) :
    alistGet (entryPush m t k2) k' =
      if k' = t then some ((alistGet m t).getD [] ++ [k2])
      else alistGet m k' := by
  unfold entryPush
  cases hm : alistGet m t <;>
    simp [alistGet_insert, hm]

/-- A successful lookup comes from an actual entry of the list. -/
theorem alistGet_mem {α : Type} :
    ∀ (m : List (Nat × α)) (k : Nat) (v : α),
      alistGet m k = some v → (k, v) ∈ m
  | [], _, _, h => by cases h
  | p :: rest, k, v, h => by
    by_cases hp : p.1 = k
    · rw [alistGet_cons_hit _ _ _ hp] at h
      obtain rfl : p.2 = v := Option.some.inj h
      have hpkv : p = (k, p.2) := Prod.ext hp rfl
      rw [List.mem_cons]
      exact Or.inl hpkv.symm
    · rw [alistGet_cons_miss _ _ _ hp] at h
      exact List.mem_cons_of_mem p (alistGet_mem rest k v h)

/-- A key absent from the key list looks up to `none`. -/
theorem alistGet_eq_none_of_not_mem_keys {α : Type} :
    ∀ (m : List (Nat × α)) (k : Nat), k ∉ m.map Prod.fst →
      alistGet m k = none
  | [], _, _ => rfl
  | p :: rest, k, h => by
    have h1 : p.1 ≠ k := by
      intro hh
      exact h (by simp [← hh])
    rw [alistGet_cons_miss _ _ _ h1]
    exact alistGet_eq_none_of_not_mem_keys rest k (fun hh => h (by simp [hh]))

/-- The 32-bit fold of Pass 1: a source already recorded stays recorded, and
the scanning tag `k2 = S` gets recorded under every 32-bit target in the
list. -/
theorem mem_foldl_push32 (k2 T S : Nat) :
    ∀ (l : List (Nat × Nat)) (d : List (Nat × List Nat)),
      (S ∈ (alistGet d T).getD [] ∨ (k2 = S ∧ ∃ off, (off, T) ∈ l)) →
      S ∈ (alistGet (l.foldl (fun d t32 => entryPush d t32.2 k2) d) T).getD []
  | [], d, h => by
    rcases h with h | ⟨-, off, hoff⟩
    · exact h
    · exact absurd hoff (List.not_mem_nil _)
  | x :: xs, d, h => by
    rw [List.foldl_cons]
    apply mem_foldl_push32 k2 T S xs
    rcases h with h | ⟨hk2, off, hoff⟩
    · left
      rw [alistGet_entryPush]
      by_cases hTt : T = x.2
      · subst hTt
        simp only [if_pos rfl, Option.getD_some]
        exact List.mem_append_left _ h
      · rw [if_neg hTt]
        exact h
    · rcases List.mem_cons.mp hoff with heq | hmem
      · left
        rw [alistGet_entryPush]
        have hx2 : x.2 = T := (congrArg Prod.snd heq).symm
        rw [if_pos hx2.symm]
        simp only [Option.getD_some]
        exact List.mem_append_right _ (by simp [hk2])
      · right
        exact ⟨hk2, off, hmem⟩

/-- The 64-bit fold of Pass 1: a recorded source stays, and the scanning tag
gets recorded under the 64-to-32 resolution of every 64-bit target. -/
theorem mem_foldl_push64 (h64 : Nat → Option Nat) (k2 T S : Nat) :
    ∀ (l : List (Nat × Nat)) (d : List (Nat × List Nat)),
      (S ∈ (alistGet d T).getD [] ∨
        (k2 = S ∧ ∃ off h, (off, h) ∈ l ∧ h64 h = some T)) →
      S ∈ (alistGet (l.foldl (fun d t64 =>
        match h64 t64.2 with
        | some h32 => entryPush d h32 k2
        | none => d) d) T).getD []
  | [], d, h => by
    rcases h with h | ⟨-, off, hh, hmem, -⟩
    · exact h
    · exact absurd hmem (List.not_mem_nil _)
  | x :: xs, d, h => by
    rw [List.foldl_cons]
    apply mem_foldl_push64 h64 k2 T S xs
    rcases h with h | ⟨hk2, off, hv, hmem, hres⟩
    · left
      cases hx : h64 x.2 with
      | none => simpa [hx] using h
      | some h32 =>
        simp only [hx]
        rw [alistGet_entryPush]
        by_cases hTt : T = h32
        · subst hTt
          simp only [if_pos rfl, Option.getD_some]
          exact List.mem_append_left _ h
        · rw [if_neg hTt]
          exact h
    · rcases List.mem_cons.mp hmem with heq | hmem'
      · left
        have hx2 : x.2 = hv := (congrArg Prod.snd heq).symm
        rw [hx2, hres]
        rw [alistGet_entryPush, if_pos rfl]
        simp only [Option.getD_some]
        exact List.mem_append_right _ (by simp [hk2])
      · right
        exact ⟨hk2, off, hv, hmem', hres⟩

/-- Pass 1 records `S` under `T` whenever the scanned tag `(S, R)` references
`T` directly (32-bit) or through the 64-to-32 table. -/
theorem mem_gatherRefs (h64 : Nat → Option Nat) (S T : Nat) (R : ScanResult) :
    ∀ (cache : List (Nat × ScanResult)) (d : List (Nat × List Nat)),
      (S ∈ (alistGet d T).getD [] ∨
        ((S, R) ∈ cache ∧
          ((∃ off, (off, T) ∈ R.file_hashes) ∨
           (∃ off h, (off, h) ∈ R.file_hashes64 ∧ h64 h = some T)))) →
      S ∈ (alistGet (cache.foldl (fun drc kv =>
        kv.2.file_hashes64.foldl (fun d t64 =>
          match h64 t64.2 with
          | some h32 => entryPush d h32 kv.1
          | none => d)
          (kv.2.file_hashes.foldl (fun d t32 => entryPush d t32.2 kv.1) drc))
        d) T).getD []
  | [], d, h => by
    rcases h with h | ⟨hmem, -⟩
    · exact h
    · exact absurd hmem (List.not_mem_nil _)
  | kv :: rest, d, h => by
    rw [List.foldl_cons]
    apply mem_gatherRefs h64 S T R rest
    rcases h with h | ⟨hmem, hcond⟩
    · left
      exact mem_foldl_push64 h64 kv.1 T S kv.2.file_hashes64 _
        (Or.inl (mem_foldl_push32 kv.1 T S kv.2.file_hashes d (Or.inl h)))
    · rcases List.mem_cons.mp hmem with heq | hmem'
      · left
        have hk1 : kv.1 = S := (congrArg Prod.fst heq).symm
        have hk2 : kv.2 = R := (congrArg Prod.snd heq).symm
        rcases hcond with ⟨off, hoff⟩ | ⟨off, hh, hmem64, hres⟩
        · exact mem_foldl_push64 h64 kv.1 T S kv.2.file_hashes64 _
            (Or.inl (mem_foldl_push32 kv.1 T S kv.2.file_hashes d
              (Or.inr ⟨hk1, off, by rw [hk2]; exact hoff⟩)))
        · exact mem_foldl_push64 h64 kv.1 T S kv.2.file_hashes64 _
            (Or.inr ⟨hk1, off, hh, by rw [hk2]; exact hmem64, hres⟩)
      · right
        exact ⟨hmem', hcond⟩

/-- Pass 2a leaves keys absent from the scanned cache untouched. -/
theorem applyRefs_foldl_none (drc : List (Nat × List Nat)) (T : Nat) :
    ∀ (cache : List (Nat × ScanResult)) (nc0 : List (Nat × ScanResult)),
      alistGet cache T = none →
      alistGet (cache.foldl (fun nc kv => alistInsert nc kv.1
        (match alistGet drc kv.1 with
         | some refs => { kv.2 with references := refs }
         | none => kv.2)) nc0) T = alistGet nc0 T
  | [], nc0, _ => rfl
  | kv :: rest, nc0, h => by
    have hne : kv.1 ≠ T := by
      intro hh
      rw [alistGet_cons_hit _ _ _ hh] at h
      cases h
    have hrest : alistGet rest T = none := by
      rw [alistGet_cons_miss _ _ _ hne] at h
      exact h
    rw [List.foldl_cons, applyRefs_foldl_none drc T rest _ hrest,
      alistGet_insert, if_neg (fun hh => hne hh.symm)]

/-- Pass 2a installs, for every scanned tag, its record with `references`
replaced from the reverse mapping (keys are unique in an `IntMap`). -/
theorem applyRefs_foldl_some (drc : List (Nat × List Nat)) (T : Nat)
    (RT : ScanResult) :
    ∀ (cache : List (Nat × ScanResult)) (nc0 : List (Nat × ScanResult)),
      (cache.map Prod.fst).Nodup →
      alistGet cache T = some RT →
      alistGet (cache.foldl (fun nc kv => alistInsert nc kv.1
        (match alistGet drc kv.1 with
         | some refs => { kv.2 with references := refs }
         | none => kv.2)) nc0) T =
        some (match alistGet drc T with
              | some refs => { RT with references := refs }
              | none => RT)
  | [], nc0, _, h => by cases h
  | kv :: rest, nc0, hnodup, h => by
    rw [List.foldl_cons]
    by_cases hk : kv.1 = T
    · have hRT : kv.2 = RT := by
        rw [alistGet_cons_hit _ _ _ hk] at h
        exact Option.some.inj h
      have hnotin : T ∉ rest.map Prod.fst := by
        rw [List.map_cons] at hnodup
        have hni := (List.nodup_cons.mp hnodup).1
        rw [hk] at hni
        exact hni
      have hrest : alistGet rest T = none :=
        alistGet_eq_none_of_not_mem_keys rest T hnotin
      rw [applyRefs_foldl_none drc T rest _ hrest, alistGet_insert,
        if_pos hk.symm, hk, hRT]
    · have hrest : alistGet rest T = some RT := by
        rw [alistGet_cons_miss _ _ _ hk] at h
        exact h
      have hnodup' : (rest.map Prod.fst).Nodup := by
        rw [List.map_cons] at hnodup
        exact (List.nodup_cons.mp hnodup).2
      exact applyRefs_foldl_some drc T RT rest _ hnodup' hrest

/-- Pass 2b never disturbs a key that is already present. -/
theorem addRemaining_preserves (T : Nat) (rec : ScanResult) :
    ∀ (drc : List (Nat × List Nat)) (nc : List (Nat × ScanResult)),
      alistGet nc T = some rec →
      alistGet (addRemaining drc nc) T = some rec
  | [], nc, h => h
  | kv :: rest, nc, h => by
    unfold addRemaining
    rw [List.foldl_cons]
    split_ifs with hg
    · by_cases hk : kv.1 = T
      · rw [hk] at hg
        rw [h] at hg
        cases hg.2
      · have : alistGet (alistInsert nc kv.1
            { ScanResult.default with references := kv.2 }) T = some rec := by
          rw [alistGet_insert, if_neg (fun hh => hk hh.symm)]
          exact h
        exact addRemaining_preserves T rec rest _ this
    · exact addRemaining_preserves T rec rest _ h

/-- Pass 2b synthesizes a placeholder for a reverse-mapping key that is not in
the new cache yet. -/
theorem addRemaining_new (T : Nat) (vl : List Nat) :
    ∀ (drc : List (Nat × List Nat)) (nc : List (Nat × ScanResult)),
      alistGet nc T = none →
      alistGet drc T = some vl → vl ≠ [] →
      alistGet (addRemaining drc nc) T =
        some { ScanResult.default with references := vl }
  | [], nc, _, hd, _ => by cases hd
  | kv :: rest, nc, hnc, hd, hvl => by
    unfold addRemaining
    rw [List.foldl_cons]
    by_cases hk : kv.1 = T
    · have hkv2 : kv.2 = vl := by
        rw [alistGet_cons_hit _ _ _ hk] at hd
        exact Option.some.inj hd
      have hg : ¬ kv.2.isEmpty ∧ alistGet nc kv.1 = none := by
        constructor
        · rw [hkv2]
          simpa using hvl
        · rw [hk]
          exact hnc
      rw [if_pos hg]
      have : alistGet (alistInsert nc kv.1
          { ScanResult.default with references := kv.2 }) T =
          some { ScanResult.default with references := vl } := by
        rw [alistGet_insert, if_pos hk.symm, hkv2]
      exact addRemaining_preserves T _ rest _ this
    · have hrest : alistGet rest T = some vl := by
        rw [alistGet_cons_miss _ _ _ hk] at hd
        exact hd
      split_ifs with hg
      · have : alistGet (alistInsert nc kv.1
            { ScanResult.default with references := kv.2 }) T = none := by
          rw [alistGet_insert, if_neg (fun hh => hk hh.symm)]
          exact hnc
        exact addRemaining_new T vl rest _ this hrest hvl
      · exact addRemaining_new T vl rest _ hnc hrest hvl

/-- **C1.** Reference-graph completeness: whenever a scanned tag `S` (with
record `R`) declares a `direct_refs32` entry with hash `T`, or a
`direct_refs64` entry resolving through the external table to `T`, the cache
produced by `transform_tag_cache` contains `T` as a key and `T`'s `references`
contain `S`; and if `T` was never itself a scanned tag, its record is a
synthesized placeholder with default empty scan fields and a nonempty
`references` list — so every discovered reference target appears as a node in
the final cache. -/
theorem transform_tag_cache_refs (hash64_table : Nat → Option Nat)
    (timestamp : Nat) (cache : List (Nat × ScanResult)) (S T : Nat)
    (R : ScanResult) (hnodup : (cache.map Prod.fst).Nodup)
    (hS : alistGet cache S = some R)
    (href : (∃ off, (off, T) ∈ R.file_hashes) ∨
      (∃ off h, (off, h) ∈ R.file_hashes64 ∧ hash64_table h = some T)) :
    ∃ rec,
      alistGet (transform_tag_cache hash64_table timestamp cache).hashes T =
        some rec ∧
      S ∈ rec.references ∧
      (alistGet cache T = none →
        rec.successful = true ∧ rec.file_hashes = [] ∧
        rec.file_hashes64 = [] ∧ rec.string_hashes = [] ∧
        rec.raw_strings = [] ∧ rec.references ≠ []) := by
  have hmem : (S, R) ∈ cache := alistGet_mem cache S R hS
  have hgather : S ∈ (alistGet (gatherRefs hash64_table cache) T).getD [] := by
    unfold gatherRefs
    exact mem_gatherRefs hash64_table S T R cache [] (Or.inr ⟨hmem, href⟩)
  obtain ⟨vl, hvl, hSvl⟩ :
      ∃ vl, alistGet (gatherRefs hash64_table cache) T = some vl ∧ S ∈ vl := by
    cases hg : alistGet (gatherRefs hash64_table cache) T with
    | none =>
      rw [hg] at hgather
      simp at hgather
    | some vl =>
      rw [hg] at hgather
      exact ⟨vl, rfl, by simpa using hgather⟩
  cases hT : alistGet cache T with
  | some RT =>
    have h1 : alistGet
        (applyRefs (gatherRefs hash64_table cache) cache) T =
        some { RT with references := vl } := by
      unfold applyRefs
      rw [applyRefs_foldl_some (gatherRefs hash64_table cache) T RT cache []
        hnodup hT, hvl]
    refine ⟨{ RT with references := vl }, ?_, hSvl, ?_⟩
    · unfold transform_tag_cache
      exact addRemaining_preserves T _ _ _ h1
    · intro hnone
      simp at hnone
  | none =>
    have h1 : alistGet
        (applyRefs (gatherRefs hash64_table cache) cache) T = none := by
      unfold applyRefs
      rw [applyRefs_foldl_none (gatherRefs hash64_table cache) T cache [] hT]
      rfl
    have h2 := addRemaining_new T vl (gatherRefs hash64_table cache) _ h1 hvl
      (List.ne_nil_of_mem hSvl)
    refine ⟨{ ScanResult.default with references := vl }, ?_, hSvl, ?_⟩
    · unfold transform_tag_cache
      exact h2
    · intro hnone
      exact ⟨rfl, rfl, rfl, rfl, rfl, by simpa using List.ne_nil_of_mem hSvl⟩

/-- Witness for C1: a one-tag cache where tag 1 references tag 2; the
transformed cache synthesizes node 2 with `references = [1]`. -/
theorem transform_tag_cache_refs_witness :
    alistGet (transform_tag_cache (fun _ => none) 0
        [(1, ⟨true, [(0, 2)], [], [], [], []⟩)]).hashes 2 =
      some ⟨true, [], [], [], [], [1]⟩ ∧
    (1 : Nat) ∈ (⟨true, [], [], [], [], [1]⟩ : ScanResult).references := by
  obtain ⟨rec, hget, hmem, -⟩ := transform_tag_cache_refs (fun _ => none) 0
    [(1, ⟨true, [(0, 2)], [], [], [], []⟩)] 1 2 ⟨true, [(0, 2)], [], [], [], []⟩
    (by decide) (by decide) (Or.inl ⟨0, by decide⟩)
  have hval : alistGet (transform_tag_cache (fun _ => none) 0
      [(1, ⟨true, [(0, 2)], [], [], [], []⟩)]).hashes 2 =
      some ⟨true, [], [], [], [], [1]⟩ := by decide
  rw [hval, Option.some.injEq] at hget
  subst hget
  exact ⟨hval, hmem⟩

/-- Inserting under a key other than `K` cannot create key `K`. -/
theorem stringMapInsert_preserves_none (K k : Nat) (s : List Nat) (hk : k ≠ K)
    (m : List (Nat × List (List Nat))) (h : alistGet m K = none) :
    alistGet (stringMapInsert m k s) K = none := by
  unfold stringMapInsert
  cases hm : alistGet m k with
  | some v =>
    rw [alistGet_insert, if_neg (fun hh => hk hh.symm)]
    exact h
  | none =>
    rw [alistGet_insert, if_neg (fun hh => hk hh.symm)]
    exact h

/-- The per-container loop of `create_stringmap_d1` never creates the reserved
hash key. -/
theorem d1_container_fold_none :
    ∀ (l : List (List Nat × Nat)) (m : List (Nat × List (List Nat))),
      alistGet m 0x811c9dc5 = none →
      alistGet (l.foldl (fun m p =>
        if p.2 = 0x811c9dc5 then m else stringMapInsert m p.2 p.1) m)
        0x811c9dc5 = none
  | [], _, h => h
  | p :: rest, m, h => by
    rw [List.foldl_cons]
    by_cases hp : p.2 = 0x811c9dc5
    · rw [if_pos hp]
      exact d1_container_fold_none rest m h
    · rw [if_neg hp]
      exact d1_container_fold_none rest _
        (stringMapInsert_preserves_none _ _ _ hp _ h)

/-- Counterexample to C9 as stated: `create_stringmap_d2` has no exclusion of
the reserved empty-string hash `0x811c9dc5` — a container declaring that hash
yields it as a key of the resulting map (only `create_stringmap_d1` has the
`if *hash == 0x811c9dc5 { continue; }` check). -/
theorem create_stringmap_d2_counterexample :
    alistGet (create_stringmap_d2 [([0x811c9dc5], [[0x41]])]) 0x811c9dc5 =
      some [[0x41]] := by decide

/-- **C9 (amended).** The reserved empty-string hash `0x811c9dc5` never
appears as a key of the map produced by `create_stringmap_d1` (legacy
generation); `create_stringmap_d2` performs no such exclusion, as the concrete
container shows. -/
theorem stringmap_empty_hash_exclusion
    (containers : List (List Nat × List (List Nat))) :
    alistGet (create_stringmap_d1 containers) 0x811c9dc5 = none ∧
    alistGet (create_stringmap_d2 [([0x811c9dc5], [[0x41]])]) 0x811c9dc5 =
      some [[0x41]] := by
  constructor
  · unfold create_stringmap_d1
    generalize hstart : ([] : List (Nat × List (List Nat))) = m0
    have h0 : alistGet m0 0x811c9dc5 = none := by rw [← hstart]; rfl
    clear hstart
    induction containers generalizing m0 with
    | nil => exact h0
    | cons c rest ih =>
      rw [List.foldl_cons]
      exact ih _ (d1_container_fold_none _ _ h0)
  · decide

/-- **C5.** Zero-cipher passthrough: `decode_text(data, 0)` performs no byte
mutation and equals the loss-tolerant UTF-8 decoding of `data`; on already
valid UTF-8 input the returned bytes are `data` itself.  `decode_text` does not
depend on the archive generation, so this holds for both generations. -/
theorem decode_text_zero_cipher (data : List Nat) :
    decode_text data 0 = some (utf8Lossy data) ∧
    (validUtf8 data = true → decode_text data 0 = some data) := by
  refine ⟨rfl, fun h => ?_⟩
  simp [decode_text, utf8Lossy_of_valid data h]

/-- Witness for C5 at the valid UTF-8 buffer "foo" ++ U+00E9. -/
theorem decode_text_zero_cipher_witness :
    validUtf8 [0x66, 0x6f, 0x6f, 0xC3, 0xA9] = true ∧
    decode_text [0x66, 0x6f, 0x6f, 0xC3, 0xA9] 0 =
      some [0x66, 0x6f, 0x6f, 0xC3, 0xA9] :=
  ⟨by decide, (decode_text_zero_cipher [0x66, 0x6f, 0x6f, 0xC3, 0xA9]).2 (by decide)⟩

/-- Counterexample to C6 as stated: the claim quantifies over *every* byte
sequence, but on `[0xC0]` with cipher 1 the leading byte opens a 2-byte run
whose last byte lies past the end of the buffer, and `decode_text` produces no
string at all (the Rust code panics on `data_clone[off + 1]`), instead of
decoding a reassembled buffer. -/
theorem decode_text_cipher_counterexample :
    decode_text [0xC0] 1 = none := by decide

/-- **C6 (amended).** For every nonzero cipher `c` and every buffer whose
greedy left-to-right run decomposition (run length 1/2/3/4 decided by the
leading byte's range `0x00-0xBF`/`0xC0-0xDF`/`0xE0-0xEF`/`0xF0-0xFF`) is
complete, `decode_text` adds `c` to the last byte of each run only (raw
byte-wrapping mod 256), leaves all other bytes unchanged, and decodes the
reassembled buffer as UTF-8 with replacement of invalid sequences; in
particular `decode_text([0x41], 1) = "B"`. -/
theorem decode_text_cipher_runs (data : List Nat) (c : Nat) (hc : c ≠ 0)
    (runs : List (List Nat)) (hruns : cipherRuns data = some runs) :
    decode_text data c = some (utf8Lossy ((runs.map (shiftLast c)).flatten)) ∧
    decode_text [0x41] 1 = some [0x42] := by
  refine ⟨?_, by decide⟩
  simp [decode_text, hc, applyCipher_eq_runs, hruns]

/-- Witness for C6 at the buffer `[0x41, 0xC3, 0xA9]` with cipher 1: the runs
are `[0x41]` and `[0xC3, 0xA9]`, and only the last byte of each run moves. -/
theorem decode_text_cipher_runs_witness :
    (1 : Nat) ≠ 0 ∧
    cipherRuns [0x41, 0xC3, 0xA9] = some [[0x41], [0xC3, 0xA9]] ∧
    decode_text [0x41, 0xC3, 0xA9] 1 =
      some (utf8Lossy (([[0x41], [0xC3, 0xA9]].map (shiftLast 1)).flatten)) :=
  ⟨by decide, by decide,
   (decode_text_cipher_runs [0x41, 0xC3, 0xA9] 1 (by decide)
     [[0x41], [0xC3, 0xA9]] (by decide)).1⟩

/-- Counterexample to C10 as stated: `decode_text` is not total.  On `[0xE0]`
with cipher 1 the leading byte opens a 3-byte run inside the final bytes of the
buffer, and the Rust code indexes `data_clone[off + 2]` past the end of the
buffer (a panic, modelled `none`), so no string is returned. -/
theorem decode_text_total_counterexample :
    decode_text [0xE0] 1 = none := by decide

/-- **C10 (amended).** `decode_text` returns a string exactly when the cipher
is zero or the greedy run decomposition of the buffer is complete; when a
leading byte classified as starting a 2-, 3- or 4-byte run occurs within the
final 1 to 3 bytes of the buffer and the cipher is nonzero, the code accesses
an index past the end of the buffer (Rust panic, modelled `none`). -/
theorem decode_text_total_iff (data : List Nat) (c : Nat) :
    (decode_text data c).isSome = true ↔
      (c = 0 ∨ (cipherRuns data).isSome = true) := by
  by_cases hc : c = 0
  · simp [decode_text, hc]
  · simp only [decode_text, hc, if_false, applyCipher_eq_runs]
    cases cipherRuns data <;> simp [hc]

end Quicktag
